import Mathlib

/-!
Shallow embedding of `target_s3_csv/__init__.py` (pipelinewise-target-s3-csv).

External collaborators (the singer message parser, the jsonschema validator,
`utils.flatten_record`, the metadata add/strip helpers and the S3 transfer
layer) are modelled as oracles: a RECORD message carries the flattened record
produced by the external flattener and the verdict produced by the external
validator, since the embedded code only branches on those outputs.

Machine state mirrors the local variables of `persist_messages`:
`state`, `schemas`, `key_properties`, `headers`, `validators`, `filenames`,
the staging files on disk (header-less rows of cells) and `record_counter`.
-/

namespace TargetS3Csv

/-- Outcome of `validators[stream_name].validate(...)` (lines 77-84):
either no exception, an exception whose type name is "InvalidOperation",
or any other exception (advisory). -/
inductive Verdict where
  | ok
  | invalidOperation
  | advisory
deriving DecidableEq

/-- A flattened record: the output of `utils.flatten_record`, an ordered
mapping from column name to the rendered scalar value. -/
abbrev FlatRecord := List (String × String)

/-- A decoded singer message (`singer.parse_message(message).asdict()`). -/
inductive Message where
  | record (stream : String) (flat : FlatRecord) (verdict : Verdict)
  | state (value : Option String)
  | schema (stream : String) (schemaDef : String) (keyProperties : List String)
  | activateVersion (stream : String)
  | unknown (rawType : String)
deriving DecidableEq

/-- Error-or-warning level log events produced inside the message loop.
The `logger.error` call preceding the InvalidOperation re-raise is not
recorded because the run aborts at that point and its log output is
discarded with the rest of the aborted run. -/
inductive LogEvent where
  | unknownType (rawType : String)
deriving DecidableEq

/-- The exceptions that escape `persist_messages` (lines 72-74 and 80-84). -/
inductive PError where
  | schemaMissing (stream : String)
  | invalidOperation
deriving DecidableEq

/-- The configuration keys read by `persist_messages` that affect the
modelled behaviour (lines 45-46, 87). -/
structure Config where
  delimiter : String
  quotechar : String
  addMetadataColumns : Bool

/-- The mutable locals of `persist_messages`.  Staging files hold rows of
already-encoded cells; a row is rendered to a physical line by joining its
cells with the configured delimiter (what `csv.writer` does, quoting aside). -/
structure PMState where
  state : Option String
  schemas : String → Option String
  validators : String → Bool
  keyProperties : String → Option (List String)
  headers : String → Option (List String)
  filenames : List String
  files : String → List (List String)
  recordCounter : List (String × Nat)
  logs : List LogEvent

def PMState.init : PMState :=
  { state := none
    schemas := fun _ => none
    validators := fun _ => false
    keyProperties := fun _ => none
    headers := fun _ => none
    filenames := []
    files := fun _ => []
    recordCounter := []
    logs := [] }

/-- `merged_sorted_headers[header] = None` on an OrderedDict: keep the key
at its existing position if present, else append it. -/
def odInsert (acc : List String) (k : String) : List String :=
  if k ∈ acc then acc else acc ++ [k]

/-- Inserting every key of `ks`, in order, into the OrderedDict `acc`. -/
def odExtend (acc : List String) (ks : List String) : List String :=
  ks.foldl odInsert acc

/-- Lines 116-136: build an OrderedDict from the left header list, then
insert the new keys; the result is its key list. -/
def reconcileHeaders (hs ks : List String) : List String :=
  odExtend (odExtend [] hs) ks

/-- Lines 110-136: the header list stored for the stream after a RECORD.
If the stream has in-memory headers, union them with the record keys;
otherwise, if the staging file already has content, union its first line
(read back as a header row) with the record keys; otherwise the headers
are just the record keys. -/
def newHeaderFor (st : PMState) (stream : String) (flatKeys : List String) :
    List String :=
  match st.headers stream with
  | some hs => reconcileHeaders hs flatKeys
  | none =>
    if (st.files stream).isEmpty then reconcileHeaders [] flatKeys
    else reconcileHeaders ((st.files stream).headD []) flatKeys

/-- Python dict lookup on the flattened record. -/
def lookupField (flat : FlatRecord) (k : String) : Option String :=
  (flat.find? (fun p => p.1 == k)).map (fun p => p.2)

/-- `csv.DictWriter(..., headers[stream_name], extrasaction="ignore")`
row encoding (line 152): one cell per header, empty when the record lacks
the column, extra record keys ignored. -/
def rowFor (header : List String) (flat : FlatRecord) : List String :=
  header.map (fun h => (lookupField flat h).getD "")

/-- Lines 148-150: `record_counter` update, a Python dict keyed by stream. -/
def bumpCounter (c : List (String × Nat)) (stream : String) :
    List (String × Nat) :=
  if c.any (fun p => p.1 == stream) then
    c.map (fun p => if p.1 = stream then (p.1, p.2 + 1) else p)
  else c ++ [(stream, 1)]

/-- Lines 92-104: register the staging filename for the stream on its first
record (dict insertion order is kept for the finalize and upload loops). -/
def appendFilename (fns : List String) (stream : String) : List String :=
  if stream ∈ fns then fns else fns ++ [stream]

/-- The RECORD branch of the message loop (lines 69-152). -/
def recordStep (cfg : Config) (st : PMState) (stream : String)
    (flat : FlatRecord) (verdict : Verdict) : Except PError PMState :=
  if (st.schemas stream).isNone then
    Except.error (PError.schemaMissing stream)
  else
    match verdict with
    | Verdict.invalidOperation => Except.error PError.invalidOperation
    | _ =>
      let header := newHeaderFor st stream (flat.map Prod.fst)
      Except.ok { st with
        filenames := appendFilename st.filenames stream
        headers := fun s => if s = stream then some header else st.headers s
        files := fun s =>
          if s = stream then st.files stream ++ [rowFor header flat]
          else st.files s
        recordCounter := bumpCounter st.recordCounter stream }

/-- The SCHEMA branch (lines 158-167): store the schema (possibly widened
with metadata columns by the external helper - the stored payload is never
read again by the modelled code), compile a validator, store key
properties.  Headers, files, filenames and counters are untouched. -/
def schemaStep (cfg : Config) (st : PMState) (stream : String)
    (schemaDef : String) (kp : List String) : PMState :=
  { st with
    schemas := fun s => if s = stream then some schemaDef else st.schemas s
    validators := fun s => if s = stream then true else st.validators s
    keyProperties := fun s =>
      if s = stream then some kp else st.keyProperties s }

/-- One iteration of the message loop (lines 62-171). -/
def step (cfg : Config) (st : PMState) (m : Message) : Except PError PMState :=
  match m with
  | Message.record stream flat verdict => recordStep cfg st stream flat verdict
  | Message.state v => Except.ok { st with state := v }
  | Message.schema stream sd kp => Except.ok (schemaStep cfg st stream sd kp)
  | Message.activateVersion _ => Except.ok st
  | Message.unknown raw =>
      Except.ok { st with logs := st.logs ++ [LogEvent.unknownType raw] }

/-- The whole message loop. -/
def runMessages (cfg : Config) (st : PMState) : List Message → Except PError PMState
  | [] => Except.ok st
  | m :: ms =>
    match step cfg st m with
    | Except.ok st' => runMessages cfg st' ms
    | Except.error e => Except.error e

/-- A row rendered to the physical line the csv writer appended. -/
def renderLine (delim : String) (cells : List String) : String :=
  String.intercalate delim cells

/-- Lines 174-181: the finalized file for one stream.  The header line is
joined with a hardcoded "," in the source (line 179); the staged data
lines are copied through unchanged. -/
def finalizeFile (cfg : Config) (st : PMState) (stream : String) :
    List String :=
  String.intercalate "," ((st.headers stream).getD [])
    :: (st.files stream).map (renderLine cfg.delimiter)

/-- The finalize loop over `filenames.items()` in insertion order. -/
def finalizeAll (cfg : Config) (st : PMState) : List (String × List String) :=
  st.filenames.map (fun s => (s, finalizeFile cfg st s))

/-- What `persist_messages` leaves behind when it returns normally:
the returned state, the finalized files, the uploaded streams (in
`filenames` order), the reported metrics (`record_counter` entries in
insertion order, lines 187-188) and the warning log. -/
structure RunResult where
  finalState : Option String
  finalFiles : List (String × List String)
  uploadedStreams : List String
  metrics : List (String × Nat)
  logs : List LogEvent
deriving DecidableEq

/-- `persist_messages(messages, config, s3_client)` starting from a fresh
temp directory (no pre-existing staging files). -/
def persistMessages (cfg : Config) (msgs : List Message) :
    Except PError RunResult :=
  match runMessages cfg PMState.init msgs with
  | Except.error e => Except.error e
  | Except.ok st =>
      Except.ok { finalState := st.state
                  finalFiles := finalizeAll cfg st
                  uploadedStreams := st.filenames
                  metrics := st.recordCounter
                  logs := st.logs }

/-- `emit_state` (lines 29-34): at most one stdout line, none for null. -/
def emitState : Option String → List String
  | none => []
  | some v => [v]

/-- The stdout state lines of `main` (lines 211-214): `emit_state` runs
only if `persist_messages` returned normally; an exception propagates and
the process terminates without emitting state. -/
def mainStdout (cfg : Config) (msgs : List Message) : List String :=
  match persistMessages cfg msgs with
  | Except.error _ => []
  | Except.ok r => emitState r.finalState

/-- Whether the message loop completes without an exception. -/
def runOk (cfg : Config) (msgs : List Message) : Bool :=
  match runMessages cfg PMState.init msgs with
  | Except.ok _ => true
  | Except.error _ => false

/-- The loop state at normal completion (initial state if the run aborted;
always used together with `runOk`). -/
def runState (cfg : Config) (msgs : List Message) : PMState :=
  match runMessages cfg PMState.init msgs with
  | Except.ok st => st
  | Except.error _ => PMState.init

/-- The state after one successful step (unchanged state if it failed). -/
def stepStateD (cfg : Config) (st : PMState) (m : Message) : PMState :=
  match step cfg st m with
  | Except.ok st' => st'
  | Except.error _ => st

/-! ### Lemmas about the OrderedDict-based header union -/

theorem odInsert_of_mem {acc : List String} {k : String} (h : k ∈ acc) :
    odInsert acc k = acc := by
  unfold odInsert; rw [if_pos h]

theorem odInsert_of_not_mem {acc : List String} {k : String} (h : k ∉ acc) :
    odInsert acc k = acc ++ [k] := by
  unfold odInsert; rw [if_neg h]

theorem prefix_odInsert (acc : List String) (k : String) :
    acc <+: odInsert acc k := by
  unfold odInsert
  by_cases h : k ∈ acc
  · rw [if_pos h]
  · rw [if_neg h]; exact ⟨[k], rfl⟩

theorem mem_odInsert {x : String} (acc : List String) (k : String) :
    x ∈ odInsert acc k ↔ x ∈ acc ∨ x = k := by
  unfold odInsert
  by_cases h : k ∈ acc
  · rw [if_pos h]
    constructor
    · exact Or.inl
    · rintro (hx | rfl)
      · exact hx
      · exact h
  · rw [if_neg h]
    simp [List.mem_append]

theorem nodup_odInsert {acc : List String} (k : String) (h : acc.Nodup) :
    (odInsert acc k).Nodup := by
  unfold odInsert
  by_cases hk : k ∈ acc
  · rw [if_pos hk]; exact h
  · rw [if_neg hk]
    simp [List.nodup_append, h, hk]

theorem odExtend_nil (acc : List String) : odExtend acc [] = acc := rfl

theorem odExtend_cons (acc : List String) (k : String) (ks : List String) :
    odExtend acc (k :: ks) = odExtend (odInsert acc k) ks := rfl

theorem prefix_odExtend (acc ks : List String) : acc <+: odExtend acc ks := by
  induction ks generalizing acc with
  | nil => exact List.prefix_rfl
  | cons k ks ih =>
    rw [odExtend_cons]
    exact (prefix_odInsert acc k).trans (ih (odInsert acc k))

theorem mem_odExtend {x : String} (acc ks : List String) :
    x ∈ odExtend acc ks ↔ x ∈ acc ∨ x ∈ ks := by
  induction ks generalizing acc with
  | nil => simp [odExtend_nil]
  | cons k ks ih =>
    rw [odExtend_cons, ih, mem_odInsert]
    simp [List.mem_cons, or_assoc]

theorem nodup_odExtend {acc : List String} (ks : List String)
    (h : acc.Nodup) : (odExtend acc ks).Nodup := by
  induction ks generalizing acc with
  | nil => exact h
  | cons k ks ih => exact ih (nodup_odInsert k h)

theorem odExtend_eq_of_subset {acc ks : List String}
    (h : ∀ k ∈ ks, k ∈ acc) : odExtend acc ks = acc := by
  induction ks with
  | nil => rfl
  | cons k ks ih =>
    rw [odExtend_cons, odInsert_of_mem (h k (List.mem_cons_self k ks))]
    exact ih (fun k' hk' => h k' (List.mem_cons_of_mem k hk'))

theorem odExtend_of_disjoint {acc ks : List String} (hnd : ks.Nodup)
    (hdis : ∀ k ∈ ks, k ∉ acc) : odExtend acc ks = acc ++ ks := by
  induction ks generalizing acc with
  | nil => simp [odExtend_nil]
  | cons k ks ih =>
    rw [odExtend_cons, odInsert_of_not_mem (hdis k (List.mem_cons_self k ks))]
    rw [ih (List.Nodup.of_cons hnd)]
    · simp
    · intro k' hk'
      simp only [List.mem_append, List.mem_singleton]
      rintro (hacc | rfl)
      · exact hdis k' (List.mem_cons_of_mem k hk') hacc
      · exact (List.nodup_cons.mp hnd).1 hk'

theorem odExtend_nil_of_nodup {hs : List String} (h : hs.Nodup) :
    odExtend [] hs = hs := by
  rw [odExtend_of_disjoint h (fun k _ => List.not_mem_nil k)]
  simp

/-! ### Lemmas about `reconcileHeaders` -/

theorem reconcileHeaders_eq_odExtend {hs : List String} (ks : List String)
    (h : hs.Nodup) : reconcileHeaders hs ks = odExtend hs ks := by
  unfold reconcileHeaders
  rw [odExtend_nil_of_nodup h]

theorem nodup_reconcileHeaders (hs ks : List String) :
    (reconcileHeaders hs ks).Nodup :=
  nodup_odExtend ks (nodup_odExtend hs List.nodup_nil)

theorem mem_reconcileHeaders {x : String} (hs ks : List String) :
    x ∈ reconcileHeaders hs ks ↔ x ∈ hs ∨ x ∈ ks := by
  unfold reconcileHeaders
  rw [mem_odExtend, mem_odExtend]
  simp

theorem prefix_reconcileHeaders {hs : List String} (ks : List String)
    (h : hs.Nodup) : hs <+: reconcileHeaders hs ks := by
  rw [reconcileHeaders_eq_odExtend ks h]
  exact prefix_odExtend hs ks

/-! ### Projections of the input message list -/

/-- The flattened key lists of the RECORD messages for one stream, in
arrival order. -/
def recordKeyLists (stream : String) : List Message → List (List String)
  | [] => []
  | Message.record s flat _ :: ms =>
      if s = stream then flat.map Prod.fst :: recordKeyLists stream ms
      else recordKeyLists stream ms
  | Message.state _ :: ms => recordKeyLists stream ms
  | Message.schema _ _ _ :: ms => recordKeyLists stream ms
  | Message.activateVersion _ :: ms => recordKeyLists stream ms
  | Message.unknown _ :: ms => recordKeyLists stream ms

/-- Ordered union, in first-seen order, of a list of key lists. -/
def unionAll (kss : List (List String)) : List String :=
  kss.foldl odExtend []

/-- The value of the last STATE message, with a default for none seen. -/
def lastStateValue : List Message → Option String → Option String
  | [], d => d
  | Message.state v :: ms, _ => lastStateValue ms v
  | Message.record _ _ _ :: ms, d => lastStateValue ms d
  | Message.schema _ _ _ :: ms, d => lastStateValue ms d
  | Message.activateVersion _ :: ms, d => lastStateValue ms d
  | Message.unknown _ :: ms, d => lastStateValue ms d

def containsState (msgs : List Message) : Bool :=
  msgs.any (fun m => match m with
    | Message.state _ => true
    | _ => false)

def containsSchemaFor (stream : String) (msgs : List Message) : Bool :=
  msgs.any (fun m => match m with
    | Message.schema s _ _ => s == stream
    | _ => false)

def containsRecordFor (stream : String) (msgs : List Message) : Bool :=
  msgs.any (fun m => match m with
    | Message.record s _ _ => s == stream
    | _ => false)

/-- Number of RECORD messages for the stream. -/
def recordCount (stream : String) : List Message → Nat
  | [] => 0
  | Message.record s _ _ :: ms =>
      (if s = stream then 1 else 0) + recordCount stream ms
  | Message.state _ :: ms => recordCount stream ms
  | Message.schema _ _ _ :: ms => recordCount stream ms
  | Message.activateVersion _ :: ms => recordCount stream ms
  | Message.unknown _ :: ms => recordCount stream ms

/-- Dict lookup in `record_counter`, 0 when the key is absent. -/
def counterValue : List (String × Nat) → String → Nat
  | [], _ => 0
  | p :: c, stream => if p.1 = stream then p.2 else counterValue c stream

/-- Dict key membership in `record_counter`. -/
def counterHasKey (c : List (String × Nat)) (stream : String) : Bool :=
  c.any (fun p => p.1 == stream)

/-- The in-memory header list of a stream, empty when absent. -/
def headerVal (st : PMState) (stream : String) : List String :=
  (st.headers stream).getD []

/-- Run invariant for one stream: a stream with staged rows has in-memory
headers, and stored headers are duplicate-free. -/
def HeaderInv (stream : String) (st : PMState) : Prop :=
  (st.headers stream = none → st.files stream = [])
  ∧ ∀ hs, st.headers stream = some hs → hs.Nodup

/-! ### Shape lemmas for single steps -/

theorem recordStep_ok_eq {cfg : Config} {st : PMState} {stream : String}
    {flat : FlatRecord} {verdict : Verdict} {st' : PMState}
    (h : recordStep cfg st stream flat verdict = Except.ok st') :
    st' = { st with
      filenames := appendFilename st.filenames stream
      headers := fun s =>
        if s = stream then some (newHeaderFor st stream (flat.map Prod.fst))
        else st.headers s
      files := fun s =>
        if s = stream then
          st.files stream ++ [rowFor (newHeaderFor st stream (flat.map Prod.fst)) flat]
        else st.files s
      recordCounter := bumpCounter st.recordCounter stream } := by
  unfold recordStep at h
  by_cases hsch : (st.schemas stream).isNone
  · rw [if_pos hsch] at h
    exact absurd h (by simp)
  · rw [if_neg hsch] at h
    cases verdict with
    | invalidOperation => exact absurd h (by simp)
    | ok =>
      injection h with h
      exact h.symm
    | advisory =>
      injection h with h
      exact h.symm

theorem recordStep_noSchema {cfg : Config} {st : PMState} {stream : String}
    {flat : FlatRecord} {verdict : Verdict} (h : st.schemas stream = none) :
    recordStep cfg st stream flat verdict
      = Except.error (PError.schemaMissing stream) := by
  unfold recordStep
  rw [if_pos (by rw [h]; rfl)]

theorem recordStep_invalidOperation {cfg : Config} {st : PMState}
    {stream : String} {flat : FlatRecord} {sd : String}
    (h : st.schemas stream = some sd) :
    recordStep cfg st stream flat Verdict.invalidOperation
      = Except.error PError.invalidOperation := by
  unfold recordStep
  rw [if_neg (by rw [h]; simp)]

theorem nodup_newHeaderFor (st : PMState) (stream : String)
    (ks : List String) : (newHeaderFor st stream ks).Nodup := by
  unfold newHeaderFor
  cases st.headers stream with
  | some hs => exact nodup_reconcileHeaders hs ks
  | none =>
    by_cases he : (st.files stream).isEmpty
    · rw [if_pos he]
      exact nodup_reconcileHeaders [] ks
    · rw [if_neg he]
      exact nodup_reconcileHeaders _ ks

theorem newHeaderFor_eq_odExtend {st : PMState} {stream : String}
    (ks : List String) (hinv : HeaderInv stream st) :
    newHeaderFor st stream ks = odExtend (headerVal st stream) ks := by
  unfold newHeaderFor headerVal
  cases hh : st.headers stream with
  | some hs => exact reconcileHeaders_eq_odExtend ks (hinv.2 hs hh)
  | none =>
    rw [hinv.1 hh]
    rfl

/-! ### Lemmas about `bumpCounter` -/

theorem counterValue_map_bump_same (c : List (String × Nat)) (s : String)
    (hc : c.any (fun p => p.1 == s) = true) :
    counterValue (c.map (fun p => if p.1 = s then (p.1, p.2 + 1) else p)) s
      = counterValue c s + 1 := by
  induction c with
  | nil => simp at hc
  | cons p c ih =>
    by_cases hp : p.1 = s
    · simp only [List.map_cons, counterValue, if_pos hp]
    · have hc' : c.any (fun p => p.1 == s) = true := by
        rw [List.any_cons] at hc
        have hb : (p.1 == s) = false := by simpa using hp
        rw [hb] at hc
        simpa using hc
      simp only [List.map_cons, counterValue, if_neg hp]
      exact ih hc'

theorem counterValue_map_bump_ne (c : List (String × Nat)) (s x : String)
    (hx : x ≠ s) :
    counterValue (c.map (fun p => if p.1 = s then (p.1, p.2 + 1) else p)) x
      = counterValue c x := by
  induction c with
  | nil => rfl
  | cons p c ih =>
    by_cases hp : p.1 = x
    · have hps : ¬ p.1 = s := fun h => hx (hp ▸ h)
      simp only [List.map_cons, counterValue, if_neg hps, if_pos hp]
    · simp only [List.map_cons, counterValue]
      rw [if_neg (show ¬ (if p.1 = s then (p.1, p.2 + 1) else p).1 = x from by
            by_cases hps : p.1 = s
            · rw [if_pos hps]; exact fun h => hp h
            · rw [if_neg hps]; exact hp)]
      rw [if_neg hp]
      exact ih

theorem counterValue_append_new (c : List (String × Nat)) (s : String)
    (hc : c.any (fun p => p.1 == s) = false) :
    counterValue (c ++ [(s, 1)]) s = 1 ∧ counterValue c s = 0 := by
  induction c with
  | nil => simp [counterValue]
  | cons p c ih =>
    have hp : (p.1 == s) = false := by
      cases hps : (p.1 == s) with
      | false => rfl
      | true =>
        rw [List.any_cons, hps] at hc
        simp at hc
    have hc' : c.any (fun p => p.1 == s) = false := by
      rw [List.any_cons, hp] at hc
      simpa using hc
    have hp' : ¬ p.1 = s := by simpa using hp
    simp only [List.cons_append, counterValue, if_neg hp']
    exact ih hc'

theorem counterValue_append_ne (c : List (String × Nat)) (s x : String)
    (hx : x ≠ s) : counterValue (c ++ [(s, 1)]) x = counterValue c x := by
  induction c with
  | nil => simp [counterValue, Ne.symm hx]
  | cons p c ih =>
    simp only [List.cons_append, counterValue]
    by_cases hp : p.1 = x
    · rw [if_pos hp, if_pos hp]
    · rw [if_neg hp, if_neg hp]
      exact ih

theorem counterValue_bumpCounter_same (c : List (String × Nat)) (s : String) :
    counterValue (bumpCounter c s) s = counterValue c s + 1 := by
  unfold bumpCounter
  by_cases hc : c.any (fun p => p.1 == s) = true
  · rw [if_pos hc]
    exact counterValue_map_bump_same c s hc
  · have hc' : c.any (fun p => p.1 == s) = false := by
      cases h2 : c.any (fun p => p.1 == s) with
      | false => rfl
      | true => exact absurd h2 hc
    rw [if_neg (by rw [hc']; simp)]
    obtain ⟨h1, h0⟩ := counterValue_append_new c s hc'
    rw [h1, h0]

theorem counterValue_bumpCounter_ne (c : List (String × Nat)) (s x : String)
    (hx : x ≠ s) : counterValue (bumpCounter c s) x = counterValue c x := by
  unfold bumpCounter
  by_cases hc : c.any (fun p => p.1 == s) = true
  · rw [if_pos hc]
    exact counterValue_map_bump_ne c s x hx
  · rw [if_neg hc]
    exact counterValue_append_ne c s x hx

theorem any_key_map_bump (c : List (String × Nat)) (s x : String) :
    (c.map (fun p => if p.1 = s then (p.1, p.2 + 1) else p)).any
        (fun p => p.1 == x)
      = c.any (fun p => p.1 == x) := by
  induction c with
  | nil => rfl
  | cons p c ih =>
    simp only [List.map_cons, List.any_cons, ih]
    congr 1
    by_cases hp : p.1 = s
    · rw [if_pos hp]
    · rw [if_neg hp]

theorem counterHasKey_bumpCounter_ne {c : List (String × Nat)} {s x : String}
    (hx : x ≠ s) :
    counterHasKey (bumpCounter c s) x = counterHasKey c x := by
  unfold bumpCounter counterHasKey
  by_cases hc : c.any (fun p => p.1 == s) = true
  · rw [if_pos hc]
    exact any_key_map_bump c s x
  · rw [if_neg hc]
    simp [List.any_append, Ne.symm hx]

theorem counterHasKey_false_iff (c : List (String × Nat)) (x : String) :
    counterHasKey c x = false ↔ ∀ p ∈ c, p.1 ≠ x := by
  unfold counterHasKey
  simp

theorem mem_appendFilename_iff {fns : List String} {s x : String}
    (hx : x ≠ s) : x ∈ appendFilename fns s ↔ x ∈ fns := by
  unfold appendFilename
  by_cases hs : s ∈ fns
  · rw [if_pos hs]
  · rw [if_neg hs]
    simp [List.mem_append, hx]

/-! ### Run-level lemmas -/

theorem runMessages_append (cfg : Config) (st : PMState)
    (l₁ l₂ : List Message) :
    runMessages cfg st (l₁ ++ l₂) =
      match runMessages cfg st l₁ with
      | Except.ok st' => runMessages cfg st' l₂
      | Except.error e => Except.error e := by
  induction l₁ generalizing st with
  | nil => rfl
  | cons m ms ih =>
    show (match step cfg st m with
          | Except.ok st₁ => runMessages cfg st₁ (ms ++ l₂)
          | Except.error e => Except.error e) = _
    cases hstep : step cfg st m with
    | ok st₁ =>
      rw [show runMessages cfg st (m :: ms) =
            (match step cfg st m with
             | Except.ok st₁ => runMessages cfg st₁ ms
             | Except.error e => Except.error e) from rfl, hstep]
      exact ih st₁
    | error e =>
      rw [show runMessages cfg st (m :: ms) =
            (match step cfg st m with
             | Except.ok st₁ => runMessages cfg st₁ ms
             | Except.error e => Except.error e) from rfl, hstep]

theorem runOk_spec {cfg : Config} {msgs : List Message}
    (h : runOk cfg msgs = true) :
    runMessages cfg PMState.init msgs = Except.ok (runState cfg msgs) := by
  unfold runOk at h
  unfold runState
  cases hr : runMessages cfg PMState.init msgs with
  | ok st => rfl
  | error e =>
    rw [hr] at h
    exact Bool.noConfusion h

theorem mainStdout_of_ok {cfg : Config} {msgs : List Message}
    (h : runOk cfg msgs = true) :
    mainStdout cfg msgs = emitState (runState cfg msgs).state := by
  unfold mainStdout persistMessages
  rw [runOk_spec h]

theorem mainStdout_of_error {cfg : Config} {msgs : List Message} {e : PError}
    (h : runMessages cfg PMState.init msgs = Except.error e) :
    mainStdout cfg msgs = [] := by
  unfold mainStdout persistMessages
  rw [h]

theorem run_state_eq (cfg : Config) (msgs : List Message) :
    ∀ (st st' : PMState), runMessages cfg st msgs = Except.ok st' →
      st'.state = lastStateValue msgs st.state := by
  induction msgs with
  | nil =>
    intro st st' h
    injection h with h
    rw [← h]
    rfl
  | cons m ms ih =>
    intro st st' h
    cases m with
    | record stream flat verdict =>
      have h' : (match recordStep cfg st stream flat verdict with
                 | Except.ok st₁ => runMessages cfg st₁ ms
                 | Except.error e => Except.error e) = Except.ok st' := h
      cases hstep : recordStep cfg st stream flat verdict with
      | error e =>
        rw [hstep] at h'
        exact Except.noConfusion h'
      | ok st₁ =>
        rw [hstep] at h'
        have hres := ih st₁ st' h'
        rw [hres, recordStep_ok_eq hstep]
        rfl
    | state v =>
      exact ih { st with state := v } st' h
    | schema s sd kp =>
      exact ih (schemaStep cfg st s sd kp) st' h
    | activateVersion s =>
      exact ih st st' h
    | unknown r =>
      exact ih { st with logs := st.logs ++ [LogEvent.unknownType r] } st' h

theorem recordStep_ok_headers {cfg : Config} {st : PMState} {stream : String}
    {flat : FlatRecord} {verdict : Verdict} {st₁ : PMState}
    (h : recordStep cfg st stream flat verdict = Except.ok st₁) (x : String) :
    st₁.headers x =
      if x = stream then some (newHeaderFor st stream (flat.map Prod.fst))
      else st.headers x := by
  rw [recordStep_ok_eq h]

theorem recordStep_ok_files {cfg : Config} {st : PMState} {stream : String}
    {flat : FlatRecord} {verdict : Verdict} {st₁ : PMState}
    (h : recordStep cfg st stream flat verdict = Except.ok st₁) (x : String) :
    st₁.files x =
      if x = stream then
        st.files stream ++ [rowFor (newHeaderFor st stream (flat.map Prod.fst)) flat]
      else st.files x := by
  rw [recordStep_ok_eq h]

theorem recordStep_ok_counter {cfg : Config} {st : PMState} {stream : String}
    {flat : FlatRecord} {verdict : Verdict} {st₁ : PMState}
    (h : recordStep cfg st stream flat verdict = Except.ok st₁) :
    st₁.recordCounter = bumpCounter st.recordCounter stream := by
  rw [recordStep_ok_eq h]

theorem recordStep_ok_filenames {cfg : Config} {st : PMState} {stream : String}
    {flat : FlatRecord} {verdict : Verdict} {st₁ : PMState}
    (h : recordStep cfg st stream flat verdict = Except.ok st₁) :
    st₁.filenames = appendFilename st.filenames stream := by
  rw [recordStep_ok_eq h]

theorem containsSchemaFor_cons (stream : String) (m : Message)
    (ms : List Message) :
    containsSchemaFor stream (m :: ms)
      = ((match m with
          | Message.schema s _ _ => s == stream
          | _ => false) || containsSchemaFor stream ms) := by
  unfold containsSchemaFor
  rw [List.any_cons]

theorem containsRecordFor_cons (stream : String) (m : Message)
    (ms : List Message) :
    containsRecordFor stream (m :: ms)
      = ((match m with
          | Message.record s _ _ => s == stream
          | _ => false) || containsRecordFor stream ms) := by
  unfold containsRecordFor
  rw [List.any_cons]

theorem run_schemas_of_no_schema (cfg : Config) (msgs : List Message)
    (stream : String) :
    ∀ (st st' : PMState), runMessages cfg st msgs = Except.ok st' →
      containsSchemaFor stream msgs = false →
      st'.schemas stream = st.schemas stream := by
  induction msgs with
  | nil =>
    intro st st' h _
    injection h with h
    rw [← h]
  | cons m ms ih =>
    intro st st' h hns
    rw [containsSchemaFor_cons] at hns
    cases m with
    | record s flat verdict =>
      have h2 : containsSchemaFor stream ms = false := by simpa using hns
      have h' : (match recordStep cfg st s flat verdict with
                 | Except.ok st₁ => runMessages cfg st₁ ms
                 | Except.error e => Except.error e) = Except.ok st' := h
      cases hstep : recordStep cfg st s flat verdict with
      | error e =>
        rw [hstep] at h'
        exact Except.noConfusion h'
      | ok st₁ =>
        rw [hstep] at h'
        have hres := ih st₁ st' h' h2
        rw [hres, recordStep_ok_eq hstep]
    | state v =>
      have h2 : containsSchemaFor stream ms = false := by simpa using hns
      exact ih { st with state := v } st' h h2
    | schema s sd kp =>
      simp only [Bool.or_eq_false_iff] at hns
      have hne : ¬ stream = s := by
        intro he
        rw [he] at hns
        simp at hns
      have hrest := ih (schemaStep cfg st s sd kp) st' h hns.2
      rw [hrest]
      show (if stream = s then some sd else st.schemas stream)
          = st.schemas stream
      rw [if_neg hne]
    | activateVersion s =>
      have h2 : containsSchemaFor stream ms = false := by simpa using hns
      exact ih st st' h h2
    | unknown r =>
      have h2 : containsSchemaFor stream ms = false := by simpa using hns
      exact ih { st with logs := st.logs ++ [LogEvent.unknownType r] } st' h h2

theorem run_frame (cfg : Config) (msgs : List Message) (stream : String) :
    ∀ (st st' : PMState), runMessages cfg st msgs = Except.ok st' →
      containsRecordFor stream msgs = false →
      st'.headers stream = st.headers stream
      ∧ st'.files stream = st.files stream
      ∧ (stream ∈ st'.filenames ↔ stream ∈ st.filenames)
      ∧ counterHasKey st'.recordCounter stream
          = counterHasKey st.recordCounter stream := by
  induction msgs with
  | nil =>
    intro st st' h _
    injection h with h
    rw [← h]
    exact ⟨rfl, rfl, Iff.rfl, rfl⟩
  | cons m ms ih =>
    intro st st' h hnr
    rw [containsRecordFor_cons] at hnr
    cases m with
    | record s flat verdict =>
      simp only [Bool.or_eq_false_iff] at hnr
      have hne : stream ≠ s := by
        intro he
        rw [he] at hnr
        simp at hnr
      have h' : (match recordStep cfg st s flat verdict with
                 | Except.ok st₁ => runMessages cfg st₁ ms
                 | Except.error e => Except.error e) = Except.ok st' := h
      cases hstep : recordStep cfg st s flat verdict with
      | error e =>
        rw [hstep] at h'
        exact Except.noConfusion h'
      | ok st₁ =>
        rw [hstep] at h'
        obtain ⟨ih1, ih2, ih3, ih4⟩ := ih st₁ st' h' hnr.2
        refine ⟨?_, ?_, ?_, ?_⟩
        · rw [ih1, recordStep_ok_headers hstep stream, if_neg hne]
        · rw [ih2, recordStep_ok_files hstep stream, if_neg hne]
        · rw [recordStep_ok_filenames hstep] at ih3
          exact ih3.trans (mem_appendFilename_iff hne)
        · rw [ih4, recordStep_ok_counter hstep]
          exact counterHasKey_bumpCounter_ne hne
    | state v =>
      have h2 : containsRecordFor stream ms = false := by simpa using hnr
      exact ih { st with state := v } st' h h2
    | schema s sd kp =>
      have h2 : containsRecordFor stream ms = false := by simpa using hnr
      exact ih (schemaStep cfg st s sd kp) st' h h2
    | activateVersion s =>
      have h2 : containsRecordFor stream ms = false := by simpa using hnr
      exact ih st st' h h2
    | unknown r =>
      have h2 : containsRecordFor stream ms = false := by simpa using hnr
      exact ih { st with logs := st.logs ++ [LogEvent.unknownType r] } st' h h2

theorem run_counts (cfg : Config) (msgs : List Message) (stream : String) :
    ∀ (st st' : PMState), runMessages cfg st msgs = Except.ok st' →
      counterValue st'.recordCounter stream
          = counterValue st.recordCounter stream + recordCount stream msgs
      ∧ (st'.files stream).length
          = (st.files stream).length + recordCount stream msgs := by
  induction msgs with
  | nil =>
    intro st st' h
    injection h with h
    rw [← h]
    exact ⟨rfl, rfl⟩
  | cons m ms ih =>
    intro st st' h
    cases m with
    | record s flat verdict =>
      have h' : (match recordStep cfg st s flat verdict with
                 | Except.ok st₁ => runMessages cfg st₁ ms
                 | Except.error e => Except.error e) = Except.ok st' := h
      cases hstep : recordStep cfg st s flat verdict with
      | error e =>
        rw [hstep] at h'
        exact Except.noConfusion h'
      | ok st₁ =>
        rw [hstep] at h'
        obtain ⟨ih1, ih2⟩ := ih st₁ st' h'
        rw [recordStep_ok_counter hstep] at ih1
        rw [recordStep_ok_files hstep stream] at ih2
        constructor
        · rw [ih1]
          by_cases hss : s = stream
          · subst hss
            rw [counterValue_bumpCounter_same]
            simp only [recordCount, eq_self_iff_true, if_true]
            omega
          · rw [counterValue_bumpCounter_ne _ _ _ (fun he => hss he.symm)]
            simp only [recordCount, if_neg hss]
            omega
        · rw [ih2]
          by_cases hss : s = stream
          · subst hss
            simp only [recordCount, eq_self_iff_true, if_true,
              List.length_append, List.length_singleton]
            omega
          · rw [if_neg (show ¬ stream = s from fun he => hss he.symm)]
            simp only [recordCount, if_neg hss]
            omega
    | state v =>
      exact ih { st with state := v } st' h
    | schema s sd kp =>
      exact ih (schemaStep cfg st s sd kp) st' h
    | activateVersion s =>
      exact ih st st' h
    | unknown r =>
      exact ih { st with logs := st.logs ++ [LogEvent.unknownType r] } st' h

theorem run_headers (cfg : Config) (msgs : List Message) (stream : String) :
    ∀ (st st' : PMState), runMessages cfg st msgs = Except.ok st' →
      HeaderInv stream st →
      headerVal st' stream
          = (recordKeyLists stream msgs).foldl odExtend (headerVal st stream)
      ∧ HeaderInv stream st' := by
  induction msgs with
  | nil =>
    intro st st' h hinv
    injection h with h
    rw [← h]
    exact ⟨rfl, hinv⟩
  | cons m ms ih =>
    intro st st' h hinv
    cases m with
    | record s flat verdict =>
      have h' : (match recordStep cfg st s flat verdict with
                 | Except.ok st₁ => runMessages cfg st₁ ms
                 | Except.error e => Except.error e) = Except.ok st' := h
      cases hstep : recordStep cfg st s flat verdict with
      | error e =>
        rw [hstep] at h'
        exact Except.noConfusion h'
      | ok st₁ =>
        rw [hstep] at h'
        have hh := recordStep_ok_headers hstep stream
        have hf := recordStep_ok_files hstep stream
        by_cases hss : s = stream
        · subst hss
          rw [if_pos rfl] at hh hf
          have hinv₁ : HeaderInv s st₁ := by
            constructor
            · intro hnone
              rw [hh] at hnone
              exact Option.noConfusion hnone
            · intro hs hsome
              rw [hh] at hsome
              injection hsome with hsome
              rw [← hsome]
              exact nodup_newHeaderFor st s _
          obtain ⟨hfold, hinv'⟩ := ih st₁ st' h' hinv₁
          refine ⟨?_, hinv'⟩
          rw [hfold]
          have hval : headerVal st₁ s
              = odExtend (headerVal st s) (List.map Prod.fst flat) := by
            unfold headerVal
            rw [hh, Option.getD_some]
            exact newHeaderFor_eq_odExtend _ hinv
          rw [hval]
          simp [recordKeyLists, List.foldl_cons]
        · rw [if_neg (fun he => hss he.symm)] at hh hf
          have hinv₁ : HeaderInv stream st₁ := by
            constructor
            · intro hnone
              rw [hf]
              exact hinv.1 (hh.symm.trans hnone)
            · intro hs hsome
              exact hinv.2 hs (hh.symm.trans hsome)
          obtain ⟨hfold, hinv'⟩ := ih st₁ st' h' hinv₁
          refine ⟨?_, hinv'⟩
          rw [hfold]
          have hval : headerVal st₁ stream = headerVal st stream := by
            unfold headerVal
            rw [hh]
          rw [hval]
          simp [recordKeyLists, hss]
    | state v =>
      exact ih { st with state := v } st' h hinv
    | schema s sd kp =>
      exact ih (schemaStep cfg st s sd kp) st' h hinv
    | activateVersion s =>
      exact ih st st' h hinv
    | unknown r =>
      exact ih { st with logs := st.logs ++ [LogEvent.unknownType r] } st' h hinv

theorem stepStateD_record {cfg : Config} {st : PMState} {stream : String}
    {flat : FlatRecord} {verdict : Verdict} {st₁ : PMState}
    (h : recordStep cfg st stream flat verdict = Except.ok st₁) :
    stepStateD cfg st (Message.record stream flat verdict) = st₁ := by
  unfold stepStateD
  show (match recordStep cfg st stream flat verdict with
        | Except.ok st' => st'
        | Except.error _ => st) = st₁
  rw [h]

theorem headers_some_option_facts {o : Option (List String)}
    {hs : List String} (h : o = some hs) :
    o.isSome = true ∧ hs <+: o.getD [] := by
  rw [h]
  exact ⟨rfl, List.prefix_rfl⟩

/-! ### Concrete example data -/

def exCfg : Config :=
  { delimiter := ",", quotechar := "\"", addMetadataColumns := false }

def exMsgs : List Message :=
  [Message.schema "users" "sch" ["id"],
   Message.record "users" [("id", "1"), ("name", "a")] Verdict.ok,
   Message.record "users" [("id", "2"), ("name", "b"), ("email", "x")] Verdict.ok,
   Message.state (some "bm2")]

def cfgSemi : Config :=
  { delimiter := ";", quotechar := "\"", addMetadataColumns := false }

def msgsSemi : List Message :=
  [Message.schema "users" "sch" ["id"],
   Message.record "users" [("id", "1"), ("name", "a")] Verdict.ok,
   Message.record "users" [("id", "2"), ("name", "b")] Verdict.ok]

def msgsAdvisory : List Message :=
  [Message.schema "users" "sch" [],
   Message.record "users" [("id", "1")] Verdict.advisory]

def stSchemaOnly : PMState :=
  { PMState.init with
    schemas := fun s => if s = "users" then some "sch" else none
    validators := fun s => s == "users"
    keyProperties := fun s => if s = "users" then some ["id"] else none
    headers := fun s => if s = "users" then some ["id"] else none }

/-! ### Claim theorems -/

/-- Claim C1: starting from empty or nonexistent staging files, the final
HeaderSet of a stream equals the ordered union, in first-seen order, of
the distinct flattened keys of all its RECORD messages, with no
duplicate column names. -/
theorem final_headers_eq_union (cfg : Config) (msgs : List Message)
    (stream : String) (hok : runOk cfg msgs = true) :
    headerVal (runState cfg msgs) stream
        = unionAll (recordKeyLists stream msgs)
    ∧ (headerVal (runState cfg msgs) stream).Nodup := by
  have hinv : HeaderInv stream PMState.init :=
    ⟨fun _ => rfl, fun _ h => Option.noConfusion h⟩
  obtain ⟨hfold, hinv'⟩ := run_headers cfg msgs stream PMState.init
    (runState cfg msgs) (runOk_spec hok) hinv
  refine ⟨hfold, ?_⟩
  cases hh : (runState cfg msgs).headers stream with
  | none =>
    unfold headerVal
    rw [hh]
    exact List.nodup_nil
  | some hs =>
    unfold headerVal
    rw [hh, Option.getD_some]
    exact hinv'.2 hs hh

theorem final_headers_eq_union_witness :
    runOk exCfg exMsgs = true
    ∧ (headerVal (runState exCfg exMsgs) "users"
          = unionAll (recordKeyLists "users" exMsgs)
        ∧ (headerVal (runState exCfg exMsgs) "users").Nodup) :=
  ⟨by decide, final_headers_eq_union exCfg exMsgs "users" (by decide)⟩

/-- Claim C2 (code bug witness): with the configured delimiter ";", the
data lines of the finalized file are joined with ";" but its header line
is joined with the hardcoded "," of source line 179, not with the
configured delimiter the claim requires. -/
theorem finalize_header_ignores_delimiter :
    finalizeAll cfgSemi (runState cfgSemi msgsSemi)
      = [("users", ["id,name", "1;a", "2;b"])]
    ∧ String.intercalate cfgSemi.delimiter ["id", "name"] = "id;name" := by
  exact ⟨by decide, by decide⟩

/-- Claim C3: a RECORD for a stream preceding any SCHEMA for that stream
fails the run with the schema-missing error, regardless of everything
after it, and no state line is emitted. -/
theorem record_before_schema_fails (cfg : Config) (pre post : List Message)
    (stream : String) (flat : FlatRecord) (verdict : Verdict)
    (hpre : runOk cfg pre = true)
    (hns : containsSchemaFor stream pre = false) :
    runMessages cfg PMState.init
        (pre ++ Message.record stream flat verdict :: post)
      = Except.error (PError.schemaMissing stream)
    ∧ mainStdout cfg (pre ++ Message.record stream flat verdict :: post)
        = [] := by
  have hrun := runOk_spec hpre
  have hsch : (runState cfg pre).schemas stream = none := by
    have hpres := run_schemas_of_no_schema cfg pre stream PMState.init
      (runState cfg pre) hrun hns
    rw [hpres]
    rfl
  have hmain : runMessages cfg PMState.init
      (pre ++ Message.record stream flat verdict :: post)
      = Except.error (PError.schemaMissing stream) := by
    rw [runMessages_append, hrun]
    show (match recordStep cfg (runState cfg pre) stream flat verdict with
          | Except.ok st₁ => runMessages cfg st₁ post
          | Except.error e => Except.error e)
        = Except.error (PError.schemaMissing stream)
    rw [recordStep_noSchema hsch]
  exact ⟨hmain, mainStdout_of_error hmain⟩

theorem record_before_schema_fails_witness :
    (runOk exCfg [Message.schema "other" "sch" []] = true
      ∧ containsSchemaFor "users" [Message.schema "other" "sch" []] = false)
    ∧ (runMessages exCfg PMState.init
          ([Message.schema "other" "sch" []]
            ++ Message.record "users" [("id", "1")] Verdict.ok :: [])
        = Except.error (PError.schemaMissing "users")
      ∧ mainStdout exCfg ([Message.schema "other" "sch" []]
            ++ Message.record "users" [("id", "1")] Verdict.ok :: []) = []) :=
  ⟨⟨by decide, by decide⟩,
   record_before_schema_fails exCfg [Message.schema "other" "sch" []] []
     "users" [("id", "1")] Verdict.ok (by decide) (by decide)⟩

/-- Claim C4 counterexample: a RECORD whose validation fails with a
non-precision (advisory) error is persisted - its row is staged and the
counter becomes 1 - but the log stays empty: the except block of source
lines 79-84 swallows every non-InvalidOperation exception without
logging it, so "the error is logged" is false at this input. -/
theorem advisory_error_not_logged :
    (runState exCfg msgsAdvisory).logs = []
    ∧ (runState exCfg msgsAdvisory).files "users" = [["1"]]
    ∧ counterValue (runState exCfg msgsAdvisory).recordCounter "users" = 1 := by
  exact ⟨by decide, by decide, by decide⟩

/-- Claim C4 (amended): a non-precision validation failure is silently
ignored - the step behaves exactly like a successful validation: the row
is appended, the counter increments, the log is unchanged - while an
InvalidOperation validation failure aborts the run. -/
theorem advisory_ignored_but_persisted (cfg : Config) (st : PMState)
    (stream : String) (flat : FlatRecord) (sd : String)
    (hsch : st.schemas stream = some sd) :
    recordStep cfg st stream flat Verdict.advisory
      = recordStep cfg st stream flat Verdict.ok
    ∧ (stepStateD cfg st (Message.record stream flat Verdict.advisory)).files
        stream
      = st.files stream
          ++ [rowFor (newHeaderFor st stream (flat.map Prod.fst)) flat]
    ∧ counterValue
        (stepStateD cfg st
          (Message.record stream flat Verdict.advisory)).recordCounter stream
      = counterValue st.recordCounter stream + 1
    ∧ (stepStateD cfg st (Message.record stream flat Verdict.advisory)).logs
      = st.logs
    ∧ recordStep cfg st stream flat Verdict.invalidOperation
      = Except.error PError.invalidOperation := by
  have hno : ¬ (st.schemas stream).isNone = true := by
    rw [hsch]
    simp
  have hok : recordStep cfg st stream flat Verdict.advisory
      = Except.ok { st with
          filenames := appendFilename st.filenames stream
          headers := fun s =>
            if s = stream then some (newHeaderFor st stream (flat.map Prod.fst))
            else st.headers s
          files := fun s =>
            if s = stream then
              st.files stream
                ++ [rowFor (newHeaderFor st stream (flat.map Prod.fst)) flat]
            else st.files s
          recordCounter := bumpCounter st.recordCounter stream } := by
    unfold recordStep
    rw [if_neg hno]
  refine ⟨?_, ?_, ?_, ?_, recordStep_invalidOperation hsch⟩
  · rw [hok]
    unfold recordStep
    rw [if_neg hno]
  · rw [stepStateD_record hok, recordStep_ok_files hok stream,
      if_pos (Eq.refl stream)]
  · rw [stepStateD_record hok, recordStep_ok_counter hok,
      counterValue_bumpCounter_same]
  · rw [stepStateD_record hok]

theorem advisory_ignored_but_persisted_witness :
    stSchemaOnly.schemas "users" = some "sch"
    ∧ (recordStep exCfg stSchemaOnly "users" [("name", "a")] Verdict.advisory
        = recordStep exCfg stSchemaOnly "users" [("name", "a")] Verdict.ok
      ∧ (stepStateD exCfg stSchemaOnly
            (Message.record "users" [("name", "a")] Verdict.advisory)).files
          "users"
        = stSchemaOnly.files "users"
            ++ [rowFor
                (newHeaderFor stSchemaOnly "users"
                  (List.map Prod.fst [("name", "a")])) [("name", "a")]]
      ∧ counterValue
          (stepStateD exCfg stSchemaOnly
            (Message.record "users" [("name", "a")]
              Verdict.advisory)).recordCounter "users"
        = counterValue stSchemaOnly.recordCounter "users" + 1
      ∧ (stepStateD exCfg stSchemaOnly
            (Message.record "users" [("name", "a")] Verdict.advisory)).logs
        = stSchemaOnly.logs
      ∧ recordStep exCfg stSchemaOnly "users" [("name", "a")]
            Verdict.invalidOperation
        = Except.error PError.invalidOperation) :=
  ⟨by decide,
   advisory_ignored_but_persisted exCfg stSchemaOnly "users" [("name", "a")]
     "sch" (by decide)⟩

/-- Claim C5: when the run completes and the input contains a STATE
message, the value returned by message processing, and the one emitted
as the final state, is the value of the last STATE message. -/
theorem final_state_eq_last (cfg : Config) (msgs : List Message)
    (hok : runOk cfg msgs = true) (hst : containsState msgs = true) :
    (runState cfg msgs).state = lastStateValue msgs none
    ∧ mainStdout cfg msgs = emitState (lastStateValue msgs none) := by
  have h1 : (runState cfg msgs).state = lastStateValue msgs none :=
    run_state_eq cfg msgs PMState.init (runState cfg msgs) (runOk_spec hok)
  refine ⟨h1, ?_⟩
  rw [mainStdout_of_ok hok, h1]

theorem final_state_eq_last_witness :
    (runOk exCfg exMsgs = true ∧ containsState exMsgs = true)
    ∧ ((runState exCfg exMsgs).state = lastStateValue exMsgs none
      ∧ mainStdout exCfg exMsgs = emitState (lastStateValue exMsgs none)) :=
  ⟨⟨by decide, by decide⟩,
   final_state_eq_last exCfg exMsgs (by decide) (by decide)⟩

/-- Claim C6: header reconciliation is idempotent - reconciling a
duplicate-free HeaderSet with keys that are all already members returns
it unchanged, with no reordering and no duplicates, and reconciling
twice with the same keys equals reconciling once. -/
theorem reconcile_idempotent (hs ks : List String) (hnd : hs.Nodup)
    (hsub : ∀ k ∈ ks, k ∈ hs) :
    reconcileHeaders hs ks = hs
    ∧ reconcileHeaders (reconcileHeaders hs ks) ks
        = reconcileHeaders hs ks := by
  constructor
  · rw [reconcileHeaders_eq_odExtend ks hnd]
    exact odExtend_eq_of_subset hsub
  · rw [reconcileHeaders_eq_odExtend ks (nodup_reconcileHeaders hs ks)]
    exact odExtend_eq_of_subset
      (fun k hk => (mem_reconcileHeaders hs ks).mpr (Or.inr hk))

theorem reconcile_idempotent_witness :
    (List.Nodup ["id", "name"] ∧ ∀ k ∈ ["name"], k ∈ ["id", "name"])
    ∧ (reconcileHeaders ["id", "name"] ["name"] = ["id", "name"]
      ∧ reconcileHeaders (reconcileHeaders ["id", "name"] ["name"]) ["name"]
          = reconcileHeaders ["id", "name"] ["name"]) :=
  ⟨⟨by decide, by decide⟩,
   reconcile_idempotent ["id", "name"] ["name"] (by decide) (by decide)⟩

/-- Claim C7: the HeaderSet of a stream never shrinks - after any successful
step, a previously stored duplicate-free header list is still stored and
is a prefix of the new one; in particular SCHEMA messages (narrowing or
not) leave it unchanged. -/
theorem headers_never_shrink (cfg : Config) (st : PMState) (m : Message)
    (stream : String) (hs : List String) (st' : PMState)
    (hstep : step cfg st m = Except.ok st')
    (hhs : st.headers stream = some hs) (hnd : hs.Nodup) :
    (st'.headers stream).isSome = true
    ∧ hs <+: (st'.headers stream).getD [] := by
  cases m with
  | record s flat verdict =>
    have hstep' : recordStep cfg st s flat verdict = Except.ok st' := hstep
    have hh := recordStep_ok_headers hstep' stream
    by_cases hss : stream = s
    · rw [if_pos hss] at hh
      constructor
      · rw [hh]
        rfl
      · rw [hh, Option.getD_some]
        unfold newHeaderFor
        rw [← hss, hhs]
        exact prefix_reconcileHeaders _ hnd
    · rw [if_neg hss] at hh
      exact headers_some_option_facts (hh.trans hhs)
  | state v =>
    injection hstep with hstep
    rw [← hstep]
    exact headers_some_option_facts hhs
  | schema s sd kp =>
    injection hstep with hstep
    rw [← hstep]
    exact headers_some_option_facts hhs
  | activateVersion s =>
    injection hstep with hstep
    rw [← hstep]
    exact headers_some_option_facts hhs
  | unknown r =>
    injection hstep with hstep
    rw [← hstep]
    exact headers_some_option_facts hhs

theorem headers_never_shrink_witness :
    (step exCfg stSchemaOnly (Message.record "users" [("name", "a")] Verdict.ok)
        = Except.ok (stepStateD exCfg stSchemaOnly
            (Message.record "users" [("name", "a")] Verdict.ok))
      ∧ stSchemaOnly.headers "users" = some ["id"]
      ∧ List.Nodup ["id"])
    ∧ (((stepStateD exCfg stSchemaOnly
            (Message.record "users" [("name", "a")] Verdict.ok)).headers
          "users").isSome = true
      ∧ ["id"] <+: ((stepStateD exCfg stSchemaOnly
            (Message.record "users" [("name", "a")] Verdict.ok)).headers
          "users").getD []) :=
  ⟨⟨rfl, by decide, by decide⟩,
   headers_never_shrink exCfg stSchemaOnly
     (Message.record "users" [("name", "a")] Verdict.ok) "users" ["id"]
     (stepStateD exCfg stSchemaOnly
       (Message.record "users" [("name", "a")] Verdict.ok))
     rfl (by decide) (by decide)⟩

/-- Claim C8: for every stream of a completed run, the staged data row
count and the reported counter both equal the number of RECORD messages
processed for that stream, and the finalized file has exactly one more
line (the header). -/
theorem row_count_eq_record_count (cfg : Config) (msgs : List Message)
    (stream : String) (hok : runOk cfg msgs = true) :
    counterValue (runState cfg msgs).recordCounter stream
        = recordCount stream msgs
    ∧ ((runState cfg msgs).files stream).length = recordCount stream msgs
    ∧ (finalizeFile cfg (runState cfg msgs) stream).length
        = recordCount stream msgs + 1 := by
  obtain ⟨h1, h2⟩ := run_counts cfg msgs stream PMState.init
    (runState cfg msgs) (runOk_spec hok)
  have hz : counterValue PMState.init.recordCounter stream = 0 := rfl
  have hzf : (PMState.init.files stream).length = 0 := rfl
  rw [hz, Nat.zero_add] at h1
  rw [hzf, Nat.zero_add] at h2
  refine ⟨h1, h2, ?_⟩
  unfold finalizeFile
  simp [h2]

theorem row_count_eq_record_count_witness :
    runOk exCfg exMsgs = true
    ∧ (counterValue (runState exCfg exMsgs).recordCounter "users"
          = recordCount "users" exMsgs
      ∧ ((runState exCfg exMsgs).files "users").length
          = recordCount "users" exMsgs
      ∧ (finalizeFile exCfg (runState exCfg exMsgs) "users").length
          = recordCount "users" exMsgs + 1) :=
  ⟨by decide, row_count_eq_record_count exCfg exMsgs "users" (by decide)⟩

def msgsNullState : List Message :=
  [Message.schema "users" "sch" [], Message.state none]

/-- Claim C9: if no STATE message was observed, or the last STATE value
is null, no state line is written to standard output; and in every case
at most one state line is ever emitted. -/
theorem null_state_not_emitted (cfg : Config) (msgs : List Message)
    (hok : runOk cfg msgs = true)
    (hnull : lastStateValue msgs none = none) :
    mainStdout cfg msgs = []
    ∧ ∀ (cfg' : Config) (msgs' : List Message),
        (mainStdout cfg' msgs').length ≤ 1 := by
  constructor
  · rw [mainStdout_of_ok hok,
      run_state_eq cfg msgs PMState.init (runState cfg msgs) (runOk_spec hok)]
    rw [show lastStateValue msgs PMState.init.state = none from hnull]
    rfl
  · intro cfg' msgs'
    unfold mainStdout
    cases hp : persistMessages cfg' msgs' with
    | error e => simp
    | ok r =>
      show (emitState r.finalState).length ≤ 1
      cases hf : r.finalState with
      | none => simp [emitState]
      | some v => simp [emitState]

theorem null_state_not_emitted_witness :
    (runOk exCfg msgsNullState = true
      ∧ lastStateValue msgsNullState none = none)
    ∧ (mainStdout exCfg msgsNullState = []
      ∧ ∀ (cfg' : Config) (msgs' : List Message),
          (mainStdout cfg' msgs').length ≤ 1) :=
  ⟨⟨by decide, by decide⟩,
   null_state_not_emitted exCfg msgsNullState (by decide) (by decide)⟩

def msgsNoRecord : List Message :=
  [Message.schema "users" "sch" ["id"], Message.state (some "s1"),
   Message.activateVersion "users", Message.unknown "FOO"]

/-- Claim C10: a stream that receives no RECORD message gets no staging
file entry, is not finalized or uploaded, reports no record-count
metric, and keeps no headers or staged rows; the SCHEMA branch touches
only the schema registry, the validator and the key properties. -/
theorem schema_only_stream_untouched (cfg : Config) (msgs : List Message)
    (stream : String) (hok : runOk cfg msgs = true)
    (hnr : containsRecordFor stream msgs = false) :
    stream ∉ (runState cfg msgs).filenames
    ∧ (∀ p ∈ finalizeAll cfg (runState cfg msgs), p.1 ≠ stream)
    ∧ (∀ p ∈ (runState cfg msgs).recordCounter, p.1 ≠ stream)
    ∧ (runState cfg msgs).headers stream = none
    ∧ (runState cfg msgs).files stream = []
    ∧ (∀ (st : PMState) (sd : String) (kp : List String),
        (schemaStep cfg st stream sd kp).headers = st.headers
        ∧ (schemaStep cfg st stream sd kp).files = st.files
        ∧ (schemaStep cfg st stream sd kp).filenames = st.filenames
        ∧ (schemaStep cfg st stream sd kp).recordCounter = st.recordCounter
        ∧ (schemaStep cfg st stream sd kp).state = st.state
        ∧ (schemaStep cfg st stream sd kp).logs = st.logs) := by
  obtain ⟨hh, hf, hfn, hck⟩ := run_frame cfg msgs stream PMState.init
    (runState cfg msgs) (runOk_spec hok) hnr
  have hnotmem : stream ∉ (runState cfg msgs).filenames := by
    intro hmem
    exact absurd (hfn.mp hmem) (List.not_mem_nil stream)
  refine ⟨hnotmem, ?_, ?_, hh, hf, ?_⟩
  · intro p hp
    unfold finalizeAll at hp
    rw [List.mem_map] at hp
    obtain ⟨s, hsmem, rfl⟩ := hp
    intro hps
    exact hnotmem (hps ▸ hsmem)
  · intro p hp
    have hfalse : counterHasKey (runState cfg msgs).recordCounter stream
        = false := by
      rw [hck]
      rfl
    exact ((counterHasKey_false_iff _ _).mp hfalse) p hp
  · intro st sd kp
    exact ⟨rfl, rfl, rfl, rfl, rfl, rfl⟩

theorem schema_only_stream_untouched_witness :
    (runOk exCfg msgsNoRecord = true
      ∧ containsRecordFor "users" msgsNoRecord = false)
    ∧ ("users" ∉ (runState exCfg msgsNoRecord).filenames
      ∧ (∀ p ∈ finalizeAll exCfg (runState exCfg msgsNoRecord),
            p.1 ≠ "users")
      ∧ (∀ p ∈ (runState exCfg msgsNoRecord).recordCounter, p.1 ≠ "users")
      ∧ (runState exCfg msgsNoRecord).headers "users" = none
      ∧ (runState exCfg msgsNoRecord).files "users" = []
      ∧ (∀ (st : PMState) (sd : String) (kp : List String),
          (schemaStep exCfg st "users" sd kp).headers = st.headers
          ∧ (schemaStep exCfg st "users" sd kp).files = st.files
          ∧ (schemaStep exCfg st "users" sd kp).filenames = st.filenames
          ∧ (schemaStep exCfg st "users" sd kp).recordCounter
              = st.recordCounter
          ∧ (schemaStep exCfg st "users" sd kp).state = st.state
          ∧ (schemaStep exCfg st "users" sd kp).logs = st.logs)) :=
  ⟨⟨by decide, by decide⟩,
   schema_only_stream_untouched exCfg msgsNoRecord "users" (by decide)
     (by decide)⟩

end TargetS3Csv
